import Mathlib

/-!
Verification of the WABO-NueroSleep computational core.

Shallow embedding of the binary-protocol signal pipeline implemented in the
repository's device service (checksum engine, frame decoder, sample decoder,
metric derivation, handshake encoder, simulation engine), together with
theorems settling the specification claims about it.

Bytes are modelled as natural numbers (the source manipulates JavaScript
numbers drawn from `Uint8Array`s, i.e. values in `[0, 256)`); byte sequences
are `List Nat`.  Floating-point quantities of the metric pipeline are
modelled as exact rationals.
-/

/-! ## Checksum Engine (`crc8`)

Embeds the source's `crc8` function: accumulator starts at 0; for each byte,
8 LSB-first rounds: `mix := (crc ^^^ byte) &&& 1`, `crc := crc >>> 1`,
xor `0x8C` into `crc` when `mix` is set, `byte := byte >>> 1`. -/

/-- One inner-loop round of `crc8`: the state is the pair `(crc, byte)`. -/
def crc8Round (s : Nat × Nat) : Nat × Nat :=
  let mix := (s.1 ^^^ s.2) &&& 0x01
  let crc := s.1 >>> 1
  let crc := if mix ≠ 0 then crc ^^^ 0x8C else crc
  (crc, s.2 >>> 1)

/-- The inner `for (let j = 0; j < 8; j++)` loop of `crc8`, as iteration. -/
def crc8Bits : Nat → Nat × Nat → Nat × Nat
  | 0, s => s
  | j + 1, s => crc8Bits j (crc8Round s)

/-- Processing of one input byte by `crc8`. -/
def crc8Byte (crc byte : Nat) : Nat := (crc8Bits 8 (crc, byte)).1

/-- The source's `crc8`: fold the per-byte update over the data, from 0. -/
def crc8 (data : List Nat) : Nat := data.foldl crc8Byte 0

/-! ## Frame Decoder (`processBinaryFrames`)

The source runs a `while (buffer.length >= 6)` loop over the byte
accumulator.  We embed one iteration of the loop body as `processStep`
(returning either "loop ends" or "loop continues with a smaller buffer and
some emitted payloads"), and the whole loop as a fuel-indexed recursion
`processFramesAux`; `processBinaryFrames` runs it with fuel `length + 1`,
which is proved sufficient. -/

/-- Embedding of `Uint8Array.indexOf(0xAA)`: index of the first `0xAA`. -/
def indexOfAA : List Nat → Option Nat
  | [] => none
  | b :: rest => if b = 0xAA then some 0 else (indexOfAA rest).map (· + 1)

/-- Result of one iteration of the decoder's `while` loop body: either the
loop ends (`stop`) with emitted payloads and a final buffer, or it continues
(`cont`) with emitted payloads and the next buffer. -/
inductive StepResult where
  | stop (out : List (List Nat)) (rest : List Nat)
  | cont (out : List (List Nat)) (next : List Nat)
  deriving DecidableEq

/-- One iteration of the loop body of `processBinaryFrames`. -/
def processStep (buffer : List Nat) : StepResult :=
  if buffer.length < 6 then .stop [] buffer
  else
    match indexOfAA buffer with
    | none => .stop [] []
    | some startIndex =>
      if 0 < startIndex then .cont [] (buffer.drop startIndex)
      else if buffer.length < 4 then .stop [] buffer
      else
        let len := buffer.getD 3 0
        let packetSize := 4 + len + 2
        if buffer.length < packetSize then .stop [] buffer
        else if buffer.getD (packetSize - 1) 0 ≠ 0xBB then .cont [] (buffer.drop 1)
        else
          let crcSource := (buffer.take (packetSize - 2)).drop 1
          let receivedCrc := buffer.getD (packetSize - 2) 0
          let calculatedCrc := crc8 crcSource
          if receivedCrc = calculatedCrc then
            .cont (if buffer.getD 1 0 = 0xF0 then [(buffer.take (4 + len)).drop 4] else [])
              (buffer.drop packetSize)
          else .cont [] (buffer.drop 1)

/-- The decoder's `while` loop, indexed by fuel; `none` means the fuel ran
out before the loop ended.  Emitted payloads are collected in order. -/
def processFramesAux : Nat → List Nat → Option (List (List Nat) × List Nat)
  | 0, _ => none
  | fuel + 1, buffer =>
    match processStep buffer with
    | .stop out rest => some (out, rest)
    | .cont out next =>
      (processFramesAux fuel next).map fun r => (out ++ r.1, r.2)

/-- One invocation of the source's `processBinaryFrames` on a given
accumulator content: returns the payloads handed to the sample decoder (in
order) and the new accumulator content.  Fuel `length + 1` is proved
sufficient below (`processFramesAux_eq_some`). -/
def processBinaryFrames (buffer : List Nat) : List (List Nat) × List Nat :=
  (processFramesAux (buffer.length + 1) buffer).getD ([], buffer)

/-- The `FUNCTION ADDRESS LENGTH PAYLOAD` fields of a frame — exactly the
byte range the CRC is computed over. -/
def frameFields (f addr : Nat) (payload : List Nat) : List Nat :=
  f :: addr :: payload.length :: payload

/-- A correctly framed, correctly checksummed frame with function byte `f`,
address byte `addr` and the given payload. -/
def mkFrame (f addr : Nat) (payload : List Nat) : List Nat :=
  0xAA :: (frameFields f addr payload ++ [crc8 (frameFields f addr payload), 0xBB])

/-- The read loop's behaviour over several received chunks: each chunk is
appended to the accumulator (`appendBuffer`) and then `processBinaryFrames`
runs; decoded payloads accumulate in order.  Starts from an empty
accumulator. -/
def feedChunks (chunks : List (List Nat)) : List (List Nat) × List Nat :=
  chunks.foldl
    (fun st chunk =>
      let r := processBinaryFrames (st.2 ++ chunk)
      (st.1 ++ r.1, r.2))
    ([], [])

/-! ## Basic decoder lemmas -/

theorem indexOfAA_cons_self (rest : List Nat) : indexOfAA (0xAA :: rest) = some 0 := by
  simp [indexOfAA]

theorem indexOfAA_eq_none {buf : List Nat} (h : ∀ b ∈ buf, b ≠ 0xAA) :
    indexOfAA buf = none := by
  induction buf with
  | nil => rfl
  | cons b rest ih =>
    have hb : b ≠ 0xAA := h b (by simp)
    rw [indexOfAA, if_neg hb, ih (fun x hx => h x (by simp [hx]))]
    rfl

/-- Every `cont` outcome of the loop body strictly shrinks the buffer:
the decoder makes forward progress on arbitrary input. -/
theorem step_shrink {buffer : List Nat} {out : List (List Nat)} {next : List Nat}
    (h : processStep buffer = .cont out next) : next.length < buffer.length := by
  simp only [processStep] at h
  split at h
  · simp at h
  next hlen =>
    split at h
    · simp at h
    next startIndex hidx =>
      split at h
      next hpos =>
        simp only [StepResult.cont.injEq] at h
        rw [← h.2]
        simp only [List.length_drop]
        omega
      next hpos =>
        split at h
        · simp at h
        split at h
        · simp at h
        split at h
        next hend =>
          simp only [StepResult.cont.injEq] at h
          rw [← h.2]; simp only [List.length_drop]; omega
        next hend =>
          split at h
          · simp only [StepResult.cont.injEq] at h
            rw [← h.2]; simp only [List.length_drop]; omega
          · simp only [StepResult.cont.injEq] at h
            rw [← h.2]; simp only [List.length_drop]; omega

theorem processFramesAux_succ_stop {fuel : Nat} {buf : List Nat} {out : List (List Nat)}
    {rest : List Nat} (h : processStep buf = .stop out rest) :
    processFramesAux (fuel + 1) buf = some (out, rest) := by
  simp [processFramesAux, h]

theorem processFramesAux_succ_cont {fuel : Nat} {buf : List Nat} {out : List (List Nat)}
    {next : List Nat} (h : processStep buf = .cont out next) :
    processFramesAux (fuel + 1) buf =
      (processFramesAux fuel next).map fun r => (out ++ r.1, r.2) := by
  simp [processFramesAux, h]

/-- The fuelled loop is insensitive to the exact fuel, as long as the fuel
exceeds the buffer length. -/
theorem processFramesAux_stable :
    ∀ (n : Nat) (buf : List Nat) (f₁ f₂ : Nat), buf.length ≤ n →
      buf.length < f₁ → buf.length < f₂ →
      processFramesAux f₁ buf = processFramesAux f₂ buf := by
  intro n
  induction n with
  | zero =>
    intro buf f₁ f₂ hn h1 h2
    cases f₁ with
    | zero => omega
    | succ g₁ =>
      cases f₂ with
      | zero => omega
      | succ g₂ =>
        cases hs : processStep buf with
        | stop out rest => rw [processFramesAux_succ_stop hs, processFramesAux_succ_stop hs]
        | cont out next => exact absurd (step_shrink hs) (by omega)
  | succ m ih =>
    intro buf f₁ f₂ hn h1 h2
    cases f₁ with
    | zero => omega
    | succ g₁ =>
      cases f₂ with
      | zero => omega
      | succ g₂ =>
        cases hs : processStep buf with
        | stop out rest => rw [processFramesAux_succ_stop hs, processFramesAux_succ_stop hs]
        | cont out next =>
          have hlt := step_shrink hs
          rw [processFramesAux_succ_cont hs, processFramesAux_succ_cont hs,
            ih next g₁ g₂ (by omega) (by omega) (by omega)]

/-- With fuel exceeding the buffer length, the loop always completes. -/
theorem processFramesAux_isSome :
    ∀ (n : Nat) (buf : List Nat) (f : Nat), buf.length ≤ n → buf.length < f →
      (processFramesAux f buf).isSome := by
  intro n
  induction n with
  | zero =>
    intro buf f hn h1
    cases f with
    | zero => omega
    | succ g =>
      cases hs : processStep buf with
      | stop out rest => rw [processFramesAux_succ_stop hs]; rfl
      | cont out next => exact absurd (step_shrink hs) (by omega)
  | succ m ih =>
    intro buf f hn h1
    cases f with
    | zero => omega
    | succ g =>
      cases hs : processStep buf with
      | stop out rest => rw [processFramesAux_succ_stop hs]; rfl
      | cont out next =>
        have hlt := step_shrink hs
        rw [processFramesAux_succ_cont hs]
        rcases Option.isSome_iff_exists.mp (ih next g (by omega) (by omega)) with ⟨r, hr⟩
        rw [hr]
        rfl

theorem processFramesAux_eq_some (buf : List Nat) :
    processFramesAux (buf.length + 1) buf = some (processBinaryFrames buf) := by
  rcases Option.isSome_iff_exists.mp
    (processFramesAux_isSome buf.length buf (buf.length + 1) le_rfl (by omega)) with ⟨r, hr⟩
  rw [processBinaryFrames, hr]
  rfl

theorem pbf_of_stop {buf : List Nat} {out : List (List Nat)} {rest : List Nat}
    (h : processStep buf = .stop out rest) :
    processBinaryFrames buf = (out, rest) := by
  rw [processBinaryFrames, processFramesAux_succ_stop h]
  rfl

theorem pbf_of_cont {buf : List Nat} {out : List (List Nat)} {next : List Nat}
    (h : processStep buf = .cont out next) :
    processBinaryFrames buf =
      (out ++ (processBinaryFrames next).1, (processBinaryFrames next).2) := by
  have hlt := step_shrink h
  have hst : processFramesAux buf.length next = processFramesAux (next.length + 1) next :=
    processFramesAux_stable next.length next _ _ le_rfl (by omega) (by omega)
  conv_lhs => rw [processBinaryFrames]
  rw [processFramesAux_succ_cont h, hst, processFramesAux_eq_some next]
  rfl

theorem pbf_nil : processBinaryFrames [] = ([], []) := rfl

/-- Pure noise (no `0xAA` anywhere): once at least 6 bytes are buffered the
whole buffer is discarded; with fewer than 6 bytes it is retained. -/
theorem pbf_no_start {buf : List Nat} (h : ∀ b ∈ buf, b ≠ 0xAA) :
    processBinaryFrames buf = ([], if buf.length < 6 then buf else []) := by
  by_cases hlen : buf.length < 6
  · rw [pbf_of_stop (by rw [processStep, if_pos hlen]), if_pos hlen]
  · rw [pbf_of_stop (show processStep buf = .stop [] [] by
      rw [processStep, if_neg hlen, indexOfAA_eq_none h]), if_neg hlen]

/-! ## Index arithmetic helpers for the frame layout -/

theorem getD_cons4 (a b c d : Nat) (X : List Nat) (n v : Nat) :
    (a :: b :: c :: d :: X).getD (n + 4) v = X.getD n v := rfl

theorem take_cons4 (a b c d : Nat) (X : List Nat) (n : Nat) :
    (a :: b :: c :: d :: X).take (n + 4) = a :: b :: c :: d :: X.take n := rfl

theorem drop_cons4 (a b c d : Nat) (X : List Nat) (n : Nat) :
    (a :: b :: c :: d :: X).drop (n + 4) = X.drop n := rfl

theorem getD_append_len {α : Type} (p Y : List α) (k : Nat) (v : α) :
    (p ++ Y).getD (p.length + k) v = Y.getD k v := by
  induction p with
  | nil => simp
  | cons a p ih =>
    simp only [List.cons_append, List.length_cons]
    rw [Nat.add_right_comm, List.getD_cons_succ]
    exact ih

theorem drop_append_len {α : Type} (p Y : List α) (k : Nat) :
    (p ++ Y).drop (p.length + k) = Y.drop k := by
  induction p with
  | nil => simp
  | cons a p ih =>
    simp only [List.cons_append, List.length_cons]
    rw [Nat.add_right_comm, List.drop_succ_cons]
    exact ih

theorem getD_append_len0 {α : Type} (p Y : List α) (v : α) :
    (p ++ Y).getD p.length v = Y.getD 0 v := by
  have h := getD_append_len p Y 0 v
  rwa [Nat.add_zero] at h

/-! ## Behaviour of one loop iteration on a well-formed frame -/

/-- A complete, correctly checksummed frame at the head of the buffer is
validated and wholly consumed in one loop iteration; its payload is emitted
exactly when the function byte is `0xF0`. -/
theorem processStep_frame (f addr : Nat) (payload rest : List Nat) :
    processStep (mkFrame f addr payload ++ rest) =
      .cont (if f = 0xF0 then [payload] else []) rest := by
  have hbuf : mkFrame f addr payload ++ rest =
      0xAA :: f :: addr :: payload.length ::
        (payload ++ (crc8 (frameFields f addr payload) :: 0xBB :: rest)) := by
    simp [mkFrame, frameFields]
  rw [hbuf]
  have hlen : (0xAA :: f :: addr :: payload.length ::
      (payload ++ (crc8 (frameFields f addr payload) :: 0xBB :: rest))).length
      = payload.length + 6 + rest.length := by
    simp only [List.length_cons, List.length_append]
    omega
  have h6 : ¬ (0xAA :: f :: addr :: payload.length ::
      (payload ++ (crc8 (frameFields f addr payload) :: 0xBB :: rest))).length < 6 := by
    rw [hlen]; omega
  have h4 : ¬ (0xAA :: f :: addr :: payload.length ::
      (payload ++ (crc8 (frameFields f addr payload) :: 0xBB :: rest))).length < 4 := by
    rw [hlen]; omega
  have hgd3 : (0xAA :: f :: addr :: payload.length ::
      (payload ++ (crc8 (frameFields f addr payload) :: 0xBB :: rest))).getD 3 0
      = payload.length := rfl
  have hgd1 : (0xAA :: f :: addr :: payload.length ::
      (payload ++ (crc8 (frameFields f addr payload) :: 0xBB :: rest))).getD 1 0 = f := rfl
  have hps : ¬ (0xAA :: f :: addr :: payload.length ::
      (payload ++ (crc8 (frameFields f addr payload) :: 0xBB :: rest))).length
      < 4 + payload.length + 2 := by
    rw [hlen]; omega
  have hend : (0xAA :: f :: addr :: payload.length ::
      (payload ++ (crc8 (frameFields f addr payload) :: 0xBB :: rest))).getD
      (4 + payload.length + 2 - 1) 0 = 0xBB := by
    rw [show 4 + payload.length + 2 - 1 = payload.length + 1 + 4 from by omega, getD_cons4,
      getD_append_len]
    rfl
  have hrecv : (0xAA :: f :: addr :: payload.length ::
      (payload ++ (crc8 (frameFields f addr payload) :: 0xBB :: rest))).getD
      (4 + payload.length + 2 - 2) 0 = crc8 (frameFields f addr payload) := by
    rw [show 4 + payload.length + 2 - 2 = payload.length + 4 from by omega, getD_cons4,
      getD_append_len0]
    rfl
  have hsrc : ((0xAA :: f :: addr :: payload.length ::
      (payload ++ (crc8 (frameFields f addr payload) :: 0xBB :: rest))).take
      (4 + payload.length + 2 - 2)).drop 1 = frameFields f addr payload := by
    rw [show 4 + payload.length + 2 - 2 = payload.length + 4 from by omega, take_cons4,
      List.take_left]
    rfl
  have hslice : ((0xAA :: f :: addr :: payload.length ::
      (payload ++ (crc8 (frameFields f addr payload) :: 0xBB :: rest))).take
      (4 + payload.length)).drop 4 = payload := by
    rw [show 4 + payload.length = payload.length + 4 from by omega, take_cons4, List.take_left]
    rfl
  have hdrop : (0xAA :: f :: addr :: payload.length ::
      (payload ++ (crc8 (frameFields f addr payload) :: 0xBB :: rest))).drop
      (4 + payload.length + 2) = rest := by
    rw [show 4 + payload.length + 2 = payload.length + 2 + 4 from by omega, drop_cons4,
      drop_append_len]
    rfl
  simp only [processStep, indexOfAA_cons_self, hgd3, hgd1, hend, hrecv, hsrc, hslice, hdrop,
    h6, h4, hps, lt_self_iff_false, if_false, ite_false, ne_eq, not_true_eq_false,
    not_false_eq_true, ite_true, if_true]

/-- On a proper front part of a frame (any strict truncation), the loop body
stops and waits for more data, leaving the buffer untouched and emitting
nothing. -/
theorem processStep_frame_take (f addr : Nat) (payload : List Nat) (k : Nat)
    (hk : k < (mkFrame f addr payload).length) :
    processStep ((mkFrame f addr payload).take k) =
      .stop [] ((mkFrame f addr payload).take k) := by
  have hFlen : (mkFrame f addr payload).length = payload.length + 6 := by
    simp only [mkFrame, frameFields, List.length_cons, List.length_append, List.length_nil]
  by_cases h6 : k < 6
  · have hlt : ((mkFrame f addr payload).take k).length < 6 := by
      simp only [List.length_take]
      omega
    rw [processStep, if_pos hlt]
  · obtain ⟨m, rfl⟩ : ∃ m, k = m + 6 := ⟨k - 6, by omega⟩
    have hT : (mkFrame f addr payload).take (m + 6) =
        0xAA :: f :: addr :: payload.length ::
          ((payload ++ [crc8 (frameFields f addr payload), 0xBB]).take (m + 2)) := by
      have hmk : mkFrame f addr payload =
          0xAA :: f :: addr :: payload.length ::
            (payload ++ [crc8 (frameFields f addr payload), 0xBB]) := by
        simp [mkFrame, frameFields]
      rw [hmk, show m + 6 = m + 2 + 4 from by omega, take_cons4]
    rw [hT]
    have hlen : (0xAA :: f :: addr :: payload.length ::
        ((payload ++ [crc8 (frameFields f addr payload), 0xBB]).take (m + 2))).length
        = m + 6 := by
      simp only [List.length_cons, List.length_take, List.length_append,
        List.length_singleton]
      omega
    have h6' : ¬ (0xAA :: f :: addr :: payload.length ::
        ((payload ++ [crc8 (frameFields f addr payload), 0xBB]).take (m + 2))).length < 6 := by
      rw [hlen]; omega
    have h4' : ¬ (0xAA :: f :: addr :: payload.length ::
        ((payload ++ [crc8 (frameFields f addr payload), 0xBB]).take (m + 2))).length < 4 := by
      rw [hlen]; omega
    have hgd3 : (0xAA :: f :: addr :: payload.length ::
        ((payload ++ [crc8 (frameFields f addr payload), 0xBB]).take (m + 2))).getD 3 0
        = payload.length := rfl
    have hps : (0xAA :: f :: addr :: payload.length ::
        ((payload ++ [crc8 (frameFields f addr payload), 0xBB]).take (m + 2))).length
        < 4 + payload.length + 2 := by
      rw [hlen]; omega
    simp only [processStep, indexOfAA_cons_self, hgd3, h6', h4', hps, lt_self_iff_false,
      if_false, ite_false, if_true, ite_true]

/-- A full decode pass over a valid frame followed by arbitrary trailing
bytes: the frame is consumed, its payload is emitted iff the function byte
is `0xF0`, and decoding proceeds on the trailing bytes alone. -/
theorem pbf_frame_append (f addr : Nat) (payload rest : List Nat) :
    processBinaryFrames (mkFrame f addr payload ++ rest) =
      ((if f = 0xF0 then [payload] else []) ++ (processBinaryFrames rest).1,
        (processBinaryFrames rest).2) :=
  pbf_of_cont (processStep_frame f addr payload rest)

/-- A full decode pass over a strict truncation of a frame emits nothing and
retains the buffered bytes. -/
theorem pbf_frame_take (f addr : Nat) (payload : List Nat) (k : Nat)
    (hk : k < (mkFrame f addr payload).length) :
    processBinaryFrames ((mkFrame f addr payload).take k) =
      ([], (mkFrame f addr payload).take k) :=
  pbf_of_stop (processStep_frame_take f addr payload k hk)

/-- Feeding chunks that are all empty does not change a state whose
accumulator is empty. -/
theorem feed_empty_chunks (chunks : List (List Nat)) (out : List (List Nat))
    (h : ∀ c ∈ chunks, c = []) :
    chunks.foldl
      (fun st chunk =>
        let r := processBinaryFrames (st.2 ++ chunk)
        (st.1 ++ r.1, r.2))
      (out, []) = (out, []) := by
  induction chunks generalizing out with
  | nil => rfl
  | cons c cs ih =>
    have hc : c = [] := h c (by simp)
    subst hc
    simp only [List.foldl_cons, List.append_nil, pbf_nil]
    exact ih out (fun x hx => h x (by simp [hx]))

/-- Invariant behind claim C1: starting from an accumulator holding a strict
front part of a valid data frame, feeding the frame's remaining bytes in any
sequence of chunks decodes exactly the frame's payload and empties the
accumulator. -/
theorem feed_frame_chunks (addr : Nat) (payload : List Nat) :
    ∀ (chunks : List (List Nat)) (k : Nat), k < (mkFrame 0xF0 addr payload).length →
      chunks.flatten = (mkFrame 0xF0 addr payload).drop k →
      chunks.foldl
        (fun st chunk =>
          let r := processBinaryFrames (st.2 ++ chunk)
          (st.1 ++ r.1, r.2))
        ([], (mkFrame 0xF0 addr payload).take k) = ([payload], []) := by
  intro chunks
  induction chunks with
  | nil =>
    intro k hk hjoin
    exfalso
    have h0 : (mkFrame 0xF0 addr payload).drop k = [] := by
      rw [← hjoin]
      rfl
    have := List.drop_eq_nil_iff.mp h0
    omega
  | cons c cs ih =>
    intro k hk hjoin
    rw [List.flatten_cons] at hjoin
    have hclen : k + c.length ≤ (mkFrame 0xF0 addr payload).length := by
      have hlen := congrArg List.length hjoin
      simp only [List.length_append, List.length_drop] at hlen
      omega
    have hc : c = ((mkFrame 0xF0 addr payload).drop k).take c.length := by
      rw [← hjoin, List.take_left]
    have hbuf : (mkFrame 0xF0 addr payload).take k ++ c
        = (mkFrame 0xF0 addr payload).take (k + c.length) := by
      rw [List.take_add, ← hc]
    have hjoin' : cs.flatten = (mkFrame 0xF0 addr payload).drop (k + c.length) := by
      have hdc : (c ++ cs.flatten).drop c.length
          = ((mkFrame 0xF0 addr payload).drop k).drop c.length := by rw [hjoin]
      rw [List.drop_left, List.drop_drop] at hdc
      exact hdc
    rw [List.foldl_cons]
    by_cases hfull : k + c.length < (mkFrame 0xF0 addr payload).length
    · have hstep : processBinaryFrames ((mkFrame 0xF0 addr payload).take k ++ c)
          = ([], (mkFrame 0xF0 addr payload).take (k + c.length)) := by
        rw [hbuf]
        exact pbf_frame_take 0xF0 addr payload _ hfull
      simp only [hstep, List.nil_append, List.append_nil]
      exact ih (k + c.length) hfull hjoin'
    · have hkfull : k + c.length = (mkFrame 0xF0 addr payload).length := by omega
      have hstep : processBinaryFrames ((mkFrame 0xF0 addr payload).take k ++ c)
          = ([payload], []) := by
        rw [hbuf, hkfull, List.take_length]
        have happ := pbf_frame_append 0xF0 addr payload []
        rw [List.append_nil] at happ
        simpa [pbf_nil] using happ
      simp only [hstep, List.nil_append, List.append_nil]
      have hcs : ∀ x ∈ cs, x = [] := by
        have hflat : cs.flatten = [] := by
          rw [hjoin', hkfull, List.drop_length]
        exact List.flatten_eq_nil_iff.mp hflat
      exact feed_empty_chunks cs [payload] hcs

/-- **C1**: for every byte sequence forming a correctly framed data frame
(START `0xAA`, FUNCTION `0xF0`, ADDRESS, LENGTH, LENGTH payload bytes,
correct CRC-8 over FUNCTION..PAYLOAD, END `0xBB`), appending that frame's
bytes to the Frame Decoder's accumulator — in one call or split across
multiple append calls at any split points — causes `processBinaryFrames` to
hand exactly one payload (bytes `[4, 4+LENGTH)` of the frame) to the sample
decoder and to consume the entire frame from the accumulator. -/
theorem frame_decoder_split_feed (addr : Nat) (payload : List Nat)
    (chunks : List (List Nat)) (haddr : addr < 256) (hlen : payload.length < 256)
    (hbytes : ∀ b ∈ payload, b < 256)
    (hjoin : chunks.flatten = mkFrame 0xF0 addr payload) :
    feedChunks chunks = ([payload], []) := by
  have hpos : 0 < (mkFrame 0xF0 addr payload).length := by
    rw [mkFrame]
    simp
  have h := feed_frame_chunks addr payload chunks 0 hpos (by simpa using hjoin)
  rw [List.take_zero] at h
  exact h

set_option maxRecDepth 8192 in
/-- Witness for C1: the frame `AA F0 01 02 11 22 D1 BB` (payload `11 22`,
CRC `0xD1`) fed in three chunks decodes to exactly its payload with an
emptied accumulator. -/
theorem frame_decoder_split_feed_witness :
    (1 : Nat) < 256 ∧ ([0x11, 0x22] : List Nat).length < 256 ∧
      (∀ b ∈ ([0x11, 0x22] : List Nat), b < 256) ∧
      ([[0xAA, 0xF0], [0x01, 0x02, 0x11], [0x22, 0xD1, 0xBB]] : List (List Nat)).flatten
        = mkFrame 0xF0 1 [0x11, 0x22] ∧
      feedChunks [[0xAA, 0xF0], [0x01, 0x02, 0x11], [0x22, 0xD1, 0xBB]]
        = ([[0x11, 0x22]], []) :=
  ⟨by decide, by decide, by decide, by decide,
    frame_decoder_split_feed 1 [0x11, 0x22] _ (by decide) (by decide) (by decide) (by decide)⟩

/-- **C4**: for every accumulator content, one invocation of the Frame
Decoder's decode pass terminates: every loop iteration either stops or
strictly shrinks the buffer, and the whole pass completes within any fuel
bound exceeding the buffer length, so decoding never blocks indefinitely on
any (malformed) input. -/
theorem decode_pass_terminates :
    (∀ (buffer : List Nat) (out : List (List Nat)) (next : List Nat),
        processStep buffer = .cont out next → next.length < buffer.length) ∧
    (∀ (fuel : Nat) (buffer : List Nat), buffer.length < fuel →
        processFramesAux fuel buffer = some (processBinaryFrames buffer)) := by
  constructor
  · exact fun _ _ _ h => step_shrink h
  · intro fuel buffer h
    rw [processFramesAux_stable buffer.length buffer fuel (buffer.length + 1) le_rfl h
      (by omega)]
    exact processFramesAux_eq_some buffer

/-- Witness for C4 at a concrete malformed buffer. -/
theorem decode_pass_terminates_witness :
    ([0xBB, 1, 2, 3, 4, 5] : List Nat).length < 7 ∧
      processFramesAux 7 [0xBB, 1, 2, 3, 4, 5]
        = some (processBinaryFrames [0xBB, 1, 2, 3, 4, 5]) :=
  ⟨by decide, decode_pass_terminates.2 7 [0xBB, 1, 2, 3, 4, 5] (by decide)⟩

/-- **C10**: for every validated frame (correct END byte and CRC) whose
FUNCTION byte is not `0xF0`, `processBinaryFrames` consumes the whole frame
from the byte accumulator but produces no samples and leaves all other state
unchanged: decoding the frame followed by any trailing bytes is
indistinguishable from decoding the trailing bytes alone, so any downstream
state fed from the emitted payloads (the raw-signal sample window and the
published snapshot) is exactly as it was before. -/
theorem nondata_frame_no_effect (f addr : Nat) (payload : List Nat)
    (hf : f ≠ 0xF0) (hfb : f < 256) (haddr : addr < 256)
    (hlen : payload.length < 256) (hbytes : ∀ b ∈ payload, b < 256) :
    (∀ rest : List Nat,
        processBinaryFrames (mkFrame f addr payload ++ rest) = processBinaryFrames rest) ∧
    (∀ (σ : Type) (applyPayload : σ → List Nat → σ) (s : σ) (rest : List Nat),
        ((processBinaryFrames (mkFrame f addr payload ++ rest)).1).foldl applyPayload s
          = ((processBinaryFrames rest).1).foldl applyPayload s) ∧
    processBinaryFrames (mkFrame f addr payload) = ([], []) := by
  have hmain : ∀ rest : List Nat,
      processBinaryFrames (mkFrame f addr payload ++ rest) = processBinaryFrames rest := by
    intro rest
    rw [pbf_frame_append f addr payload rest, if_neg hf]
    simp
  refine ⟨hmain, fun σ applyPayload s rest => by rw [hmain rest], ?_⟩
  have h := hmain []
  rw [List.append_nil] at h
  rw [h, pbf_nil]

set_option maxRecDepth 8192 in
/-- Witness for C10: a validated frame with function byte `0xB1` is consumed
without emitting any payload. -/
theorem nondata_frame_no_effect_witness :
    (0xB1 : Nat) ≠ 0xF0 ∧ (0xB1 : Nat) < 256 ∧ (1 : Nat) < 256 ∧
      ([7] : List Nat).length < 256 ∧ (∀ b ∈ ([7] : List Nat), b < 256) ∧
      processBinaryFrames (mkFrame 0xB1 1 [7]) = ([], []) :=
  ⟨by decide, by decide, by decide, by decide, by decide,
    (nondata_frame_no_effect 0xB1 1 [7] (by decide) (by decide) (by decide) (by decide)
      (by decide)).2.2⟩

/-- Single-byte resynchronization: if a complete candidate frame headed by
`0xAA` fails the END-byte check or the CRC check, the loop body drops
exactly one leading byte and continues. -/
theorem step_resync {buf : List Nat}
    (hstart : buf.getD 0 0 = 0xAA) (h6 : 6 ≤ buf.length)
    (hsz : 4 + buf.getD 3 0 + 2 ≤ buf.length)
    (hbad : buf.getD (4 + buf.getD 3 0 + 2 - 1) 0 ≠ 0xBB ∨
      crc8 ((buf.take (4 + buf.getD 3 0 + 2 - 2)).drop 1)
        ≠ buf.getD (4 + buf.getD 3 0 + 2 - 2) 0) :
    processStep buf = .cont [] (buf.drop 1) := by
  cases buf with
  | nil => simp at h6
  | cons b t =>
    have hb : b = 0xAA := by simpa using hstart
    subst hb
    have h6' : ¬ (0xAA :: t).length < 6 := by omega
    have h4' : ¬ (0xAA :: t).length < 4 := by omega
    have hps' : ¬ (0xAA :: t).length < 4 + (0xAA :: t).getD 3 0 + 2 := by omega
    by_cases hend : (0xAA :: t).getD (4 + (0xAA :: t).getD 3 0 + 2 - 1) 0 = 0xBB
    · have hcrc : crc8 (((0xAA :: t).take (4 + (0xAA :: t).getD 3 0 + 2 - 2)).drop 1)
          ≠ (0xAA :: t).getD (4 + (0xAA :: t).getD 3 0 + 2 - 2) 0 := by
        rcases hbad with hbe | hc
        · exact absurd hend hbe
        · exact hc
      have hcrc' : ¬ ((0xAA :: t).getD (4 + (0xAA :: t).getD 3 0 + 2 - 2) 0
          = crc8 (((0xAA :: t).take (4 + (0xAA :: t).getD 3 0 + 2 - 2)).drop 1)) :=
        fun hh => hcrc hh.symm
      simp only [processStep, indexOfAA_cons_self, h6', h4', hps', hend, hcrc',
        lt_self_iff_false, if_false, ite_false, ne_eq, not_true_eq_false,
        not_false_eq_true, ite_true, if_true]
    · simp only [processStep, indexOfAA_cons_self, h6', h4', hps', hend,
        lt_self_iff_false, if_false, ite_false, ne_eq, not_false_eq_true, ite_true, if_true]

/-- Full-pass version of single-byte resynchronization: the decode pass on a
buffer whose complete head frame is malformed equals the decode pass after
dropping exactly one leading byte. -/
theorem pbf_resync {buf : List Nat}
    (hstart : buf.getD 0 0 = 0xAA) (h6 : 6 ≤ buf.length)
    (hsz : 4 + buf.getD 3 0 + 2 ≤ buf.length)
    (hbad : buf.getD (4 + buf.getD 3 0 + 2 - 1) 0 ≠ 0xBB ∨
      crc8 ((buf.take (4 + buf.getD 3 0 + 2 - 2)).drop 1)
        ≠ buf.getD (4 + buf.getD 3 0 + 2 - 2) 0) :
    processBinaryFrames buf = processBinaryFrames (buf.drop 1) := by
  rw [pbf_of_cont (step_resync hstart h6 hsz hbad)]
  simp

/-- A complete frame-shaped buffer whose CRC byte is wrong and whose bytes
after the leading `0xAA` contain no further `0xAA` decodes to zero payloads
and an emptied accumulator (one-byte resync followed by noise discard). -/
theorem pbf_corrupted_frame (f addr : Nat) (payload : List Nat) (crcByte : Nat)
    (hplen : 1 ≤ payload.length)
    (hcrc : crcByte ≠ crc8 (f :: addr :: payload.length :: payload))
    (hf : f ≠ 0xAA) (haddr : addr ≠ 0xAA) (hlenb : payload.length ≠ 0xAA)
    (hcb : crcByte ≠ 0xAA) (hpb : ∀ b ∈ payload, b ≠ 0xAA) :
    processBinaryFrames
      (0xAA :: f :: addr :: payload.length :: (payload ++ [crcByte, 0xBB])) = ([], []) := by
  have hlen : (0xAA :: f :: addr :: payload.length ::
      (payload ++ [crcByte, 0xBB])).length = payload.length + 6 := by
    simp only [List.length_cons, List.length_append, List.length_nil]
    try omega
  have hgd3 : (0xAA :: f :: addr :: payload.length ::
      (payload ++ [crcByte, 0xBB])).getD 3 0 = payload.length := rfl
  have hsrc : ((0xAA :: f :: addr :: payload.length ::
      (payload ++ [crcByte, 0xBB])).take (4 + payload.length + 2 - 2)).drop 1
      = f :: addr :: payload.length :: payload := by
    rw [show 4 + payload.length + 2 - 2 = payload.length + 4 from by omega, take_cons4,
      List.take_left]
    rfl
  have hrecv : (0xAA :: f :: addr :: payload.length ::
      (payload ++ [crcByte, 0xBB])).getD (4 + payload.length + 2 - 2) 0 = crcByte := by
    rw [show 4 + payload.length + 2 - 2 = payload.length + 4 from by omega, getD_cons4,
      getD_append_len0]
    rfl
  have hres : processBinaryFrames (0xAA :: f :: addr :: payload.length ::
      (payload ++ [crcByte, 0xBB]))
      = processBinaryFrames ((0xAA :: f :: addr :: payload.length ::
        (payload ++ [crcByte, 0xBB])).drop 1) := by
    apply pbf_resync
    · rfl
    · rw [hlen]; omega
    · rw [hgd3, hlen]; omega
    · right
      rw [hgd3, hsrc, hrecv]
      exact fun hh => hcrc hh.symm
  rw [hres]
  have hdrop1 : (0xAA :: f :: addr :: payload.length ::
      (payload ++ [crcByte, 0xBB])).drop 1 = f :: addr :: payload.length ::
      (payload ++ [crcByte, 0xBB]) := rfl
  rw [hdrop1]
  have hno : ∀ b ∈ f :: addr :: payload.length :: (payload ++ [crcByte, 0xBB]),
      b ≠ 0xAA := by
    intro b hb
    simp only [List.mem_cons, List.mem_append, List.not_mem_nil, or_false] at hb
    rcases hb with rfl | rfl | rfl | hb | rfl | rfl
    · exact hf
    · exact haddr
    · exact hlenb
    · exact hpb b hb
    · exact hcb
    · decide
  rw [pbf_no_start hno, if_neg (by
    simp only [List.length_cons, List.length_append, List.length_nil]
    omega)]

set_option maxRecDepth 8192 in
/-- Counterexample to **C3** as stated.  First, fewer than 6 bytes of pure
noise (no `0xAA`) are *retained* in the accumulator, not discarded, so
feeding pure noise does not always empty the accumulator.  Second, the valid
data frame `AA F0 01 08 | AA F0 01 01 05 21 BB 00 | CA BB` (whose payload
happens to contain an embedded well-formed frame) decodes to exactly its own
payload; flipping one bit of its last payload byte (`00 → 01`) yields a
frame that decodes to *one* payload (the embedded frame's payload `[05]`),
not zero. -/
theorem malformed_frame_claims_counterexample :
    processBinaryFrames [1, 2, 3] ≠ ([], []) ∧
    [0xAA, 0xF0, 0x01, 0x08, 0xAA, 0xF0, 0x01, 0x01, 0x05, 0x21, 0xBB, 0x00, 0xCA, 0xBB]
      = mkFrame 0xF0 1 [0xAA, 0xF0, 0x01, 0x01, 0x05, 0x21, 0xBB, 0x00] ∧
    processBinaryFrames
      [0xAA, 0xF0, 0x01, 0x08, 0xAA, 0xF0, 0x01, 0x01, 0x05, 0x21, 0xBB, 0x01, 0xCA, 0xBB]
      = ([[0x05]], [0x01, 0xCA, 0xBB]) :=
  ⟨by decide, by decide, by decide⟩

/-- **C3** (amended): on a malformed frame the Frame Decoder recovers
without surfacing an error to callers.  (1) When the byte at the computed
END offset is not `0xBB`, or the computed CRC does not match the received
CRC byte, exactly one leading byte is dropped and the decode loop restarts.
(2) A corrupted complete frame (wrong CRC byte) containing no further `0xAA`
byte therefore yields zero decoded payloads and an emptied accumulator —
though in general a corrupted frame may still yield a payload from a valid
frame embedded in its interior.  (3) Feeding pure noise containing no `0xAA`
byte empties the accumulator once at least 6 bytes are buffered; fewer than
6 bytes are retained awaiting further input. -/
theorem malformed_frame_recovery :
    (∀ buf : List Nat, buf.getD 0 0 = 0xAA → 6 ≤ buf.length →
        4 + buf.getD 3 0 + 2 ≤ buf.length →
        (buf.getD (4 + buf.getD 3 0 + 2 - 1) 0 ≠ 0xBB ∨
          crc8 ((buf.take (4 + buf.getD 3 0 + 2 - 2)).drop 1)
            ≠ buf.getD (4 + buf.getD 3 0 + 2 - 2) 0) →
        processBinaryFrames buf = processBinaryFrames (buf.drop 1)) ∧
    (∀ (f addr : Nat) (payload : List Nat) (crcByte : Nat),
        1 ≤ payload.length →
        crcByte ≠ crc8 (f :: addr :: payload.length :: payload) →
        f ≠ 0xAA → addr ≠ 0xAA → payload.length ≠ 0xAA → crcByte ≠ 0xAA →
        (∀ b ∈ payload, b ≠ 0xAA) →
        processBinaryFrames
          (0xAA :: f :: addr :: payload.length :: (payload ++ [crcByte, 0xBB]))
          = ([], [])) ∧
    (∀ buf : List Nat, (∀ b ∈ buf, b ≠ 0xAA) →
        processBinaryFrames buf = ([], if buf.length < 6 then buf else [])) :=
  ⟨fun _ h1 h2 h3 h4 => pbf_resync h1 h2 h3 h4,
   fun f addr payload crcByte h1 h2 h3 h4 h5 h6 h7 =>
     pbf_corrupted_frame f addr payload crcByte h1 h2 h3 h4 h5 h6 h7,
   fun _ h => pbf_no_start h⟩

set_option maxRecDepth 8192 in
/-- Witness for the amended C3, at concrete inputs: the corrupted frame from
the counterexample resynchronizes by dropping exactly one byte; a corrupted
minimal frame with no interior `0xAA` decodes to nothing; six bytes of pure
noise empty the accumulator. -/
theorem malformed_frame_recovery_witness :
    ((0x00 : Nat) ≠ crc8 [0xF0, 0x01, [0x05].length, 0x05] ∧
      processBinaryFrames
        (0xAA :: 0xF0 :: 0x01 :: [0x05].length :: ([0x05] ++ [0x00, 0xBB])) = ([], [])) ∧
    ((∀ b ∈ ([1, 2, 3, 4, 5, 6] : List Nat), b ≠ 0xAA) ∧
      processBinaryFrames [1, 2, 3, 4, 5, 6] = ([], [])) ∧
    processBinaryFrames
        [0xAA, 0xF0, 0x01, 0x08, 0xAA, 0xF0, 0x01, 0x01, 0x05, 0x21, 0xBB, 0x01, 0xCA, 0xBB]
      = processBinaryFrames
        (List.drop 1
          [0xAA, 0xF0, 0x01, 0x08, 0xAA, 0xF0, 0x01, 0x01, 0x05, 0x21, 0xBB, 0x01, 0xCA, 0xBB]) :=
  ⟨⟨by decide,
    malformed_frame_recovery.2.1 0xF0 0x01 [0x05] 0x00 (by decide) (by decide) (by decide)
      (by decide) (by decide) (by decide) (by decide)⟩,
   ⟨by decide, malformed_frame_recovery.2.2 [1, 2, 3, 4, 5, 6] (by decide)⟩,
   malformed_frame_recovery.1
     [0xAA, 0xF0, 0x01, 0x08, 0xAA, 0xF0, 0x01, 0x01, 0x05, 0x21, 0xBB, 0x01, 0xCA, 0xBB]
     (by decide) (by decide) (by decide) (by decide)⟩

/-! ## Checksum Engine lemmas -/

theorem crc8Round_fst_lt {s : Nat × Nat} (h : s.1 < 256) : (crc8Round s).1 < 256 := by
  have hs : s.1 >>> 1 < 256 := by
    rw [Nat.shiftRight_eq_div_pow]
    omega
  simp only [crc8Round]
  split
  · exact Nat.xor_lt_two_pow (n := 8) hs (by omega)
  · exact hs

theorem crc8Bits_fst_lt (j : Nat) {s : Nat × Nat} (h : s.1 < 256) :
    (crc8Bits j s).1 < 256 := by
  induction j generalizing s with
  | zero => exact h
  | succ j ih => exact ih (crc8Round_fst_lt h)

theorem crc8Byte_lt {crc : Nat} (byte : Nat) (h : crc < 256) : crc8Byte crc byte < 256 :=
  crc8Bits_fst_lt 8 h

theorem crc8_foldl_lt (data : List Nat) : ∀ crc : Nat, crc < 256 →
    data.foldl crc8Byte crc < 256 := by
  induction data with
  | nil => exact fun crc h => h
  | cons b rest ih => exact fun crc h => ih (crc8Byte crc b) (crc8Byte_lt b h)

set_option maxRecDepth 8192 in
/-- **C2**: `crc8` is a pure deterministic total function: it is defined for
every byte sequence including the empty one (where it returns 0), always
produces an octet (a value below 256), processes its input byte-for-byte
with 8 LSB-first rounds each, and matches the reference Maxim/Dallas CRC-8
on the standard check vector (`crc8("123456789") = 0xA1`). -/
theorem crc8_contract :
    crc8 [] = 0 ∧
    (∀ data : List Nat, crc8 data < 256) ∧
    (∀ (data : List Nat) (b : Nat), crc8 (data ++ [b]) = crc8Byte (crc8 data) b) ∧
    (∀ (crc byte : Nat), crc8Byte crc byte = (crc8Bits 8 (crc, byte)).1) ∧
    crc8 [0x31, 0x32, 0x33, 0x34, 0x35, 0x36, 0x37, 0x38, 0x39] = 0xA1 :=
  ⟨rfl,
   fun data => crc8_foldl_lt data 0 (by omega),
   fun data b => by rw [crc8, crc8, List.foldl_append]; rfl,
   fun _ _ => rfl,
   by decide⟩

/-! ## Sample Decoder (`parseEEGPayload`) -/

/-- Combination of one 3-byte group into a signed 24-bit sample, exactly as
the source: `(b0 << 16) | (b1 << 8) | b2`, then subtract `0x1000000` when
`rawInt & 0x800000` is non-zero. -/
def toRawInt (b0 b1 b2 : Nat) : Int :=
  let rawInt := b0 <<< 16 ||| b1 <<< 8 ||| b2
  if rawInt &&& 0x800000 ≠ 0 then (rawInt : Int) - 0x1000000 else (rawInt : Int)

/-- The scan of `parseEEGPayload` over a payload: one sample per complete
3-byte group (`i += 3`, breaking as soon as `i + 2` is out of range); a
trailing group of fewer than 3 bytes is dropped. -/
def parseSamples : List Nat → List Int
  | b0 :: b1 :: b2 :: rest => toRawInt b0 b1 b2 :: parseSamples rest
  | _ => []

/-- The source's calibration constant `UV_SCALE = (2.4 / 6 / 8388607) * 1000000`. -/
def UV_SCALE : ℚ := 2.4 / 6 / 8388607 * 1000000

/-- Microvolt value of one decoded sample: `rawInt * UV_SCALE`. -/
def uvValue (rawInt : Int) : ℚ := (rawInt : ℚ) * UV_SCALE

theorem parseSamples_length : ∀ p : List Nat, (parseSamples p).length = p.length / 3
  | [] => rfl
  | [_] => by simp [parseSamples]
  | [_, _] => by simp [parseSamples]
  | b0 :: b1 :: b2 :: rest => by
    simp only [parseSamples, List.length_cons]
    rw [parseSamples_length rest]
    omega

theorem take_cons3 {α : Type} (a b c : α) (X : List α) (n : Nat) :
    (a :: b :: c :: X).take (n + 3) = a :: b :: c :: X.take n := rfl

theorem parseSamples_take :
    ∀ p : List Nat, parseSamples p = parseSamples (p.take (3 * (p.length / 3)))
  | [] => rfl
  | [_] => by simp [parseSamples]
  | [_, _] => by simp [parseSamples]
  | b0 :: b1 :: b2 :: rest => by
    rw [show 3 * ((b0 :: b1 :: b2 :: rest).length / 3) = 3 * (rest.length / 3) + 3 from by
      simp only [List.length_cons]; omega]
    rw [take_cons3]
    simp only [parseSamples]
    rw [← parseSamples_take rest]

/-- Disjoint-bit recombination: a left shift `or`-ed with a value fitting in
the shifted-away bits is plain addition. -/
theorem shiftLeft_or_eq_add {a b n : Nat} (hb : b < 2 ^ n) :
    a <<< n ||| b = a * 2 ^ n + b := by
  apply Nat.eq_of_testBit_eq
  intro i
  rw [Nat.testBit_lor, Nat.testBit_shiftLeft,
    show a * 2 ^ n + b = 2 ^ n * a + b from by ring,
    Nat.testBit_mul_pow_two_add a hb i]
  by_cases h : i < n
  · have hni : ¬ i ≥ n := by omega
    simp [h, hni]
  · have hni : i ≥ n := by omega
    have hb' : b < 2 ^ i := lt_of_lt_of_le hb (Nat.pow_le_pow_right (by omega) hni)
    simp [h, hni, Nat.testBit_lt_two_pow hb']

/-- Source-to-spec bridge for the 24-bit big-endian combination: for byte
inputs, the shift/or/mask computation equals the arithmetic two's-complement
value. -/
theorem toRawInt_eq_spec {b0 b1 b2 : Nat} (h0 : b0 < 256) (h1 : b1 < 256) (h2 : b2 < 256) :
    toRawInt b0 b1 b2 =
      if 8388608 ≤ b0 * 65536 + b1 * 256 + b2
      then (b0 * 65536 + b1 * 256 + b2 : Int) - 16777216
      else (b0 * 65536 + b1 * 256 + b2 : Int) := by
  have h256 : (2 : Nat) ^ 8 = 256 := by norm_num
  have h65536 : (2 : Nat) ^ 16 = 65536 := by norm_num
  have hcomb : b0 <<< 16 ||| b1 <<< 8 ||| b2 = b0 * 65536 + b1 * 256 + b2 := by
    have e1 : b0 <<< 16 ||| b1 <<< 8 = (b0 * 256 + b1) <<< 8 := by
      rw [shiftLeft_or_eq_add (show b1 <<< 8 < 2 ^ 16 by
        rw [Nat.shiftLeft_eq, h256]; omega)]
      rw [Nat.shiftLeft_eq, Nat.shiftLeft_eq, h256, h65536]
      ring
    rw [e1, shiftLeft_or_eq_add (show b2 < 2 ^ 8 by rw [h256]; omega), h256]
    ring
  have hv : b0 * 65536 + b1 * 256 + b2 < 16777216 := by omega
  have hmask : (b0 * 65536 + b1 * 256 + b2) &&& 0x800000
      = (Nat.testBit (b0 * 65536 + b1 * 256 + b2) 23).toNat * 2 ^ 23 := by
    rw [show (0x800000 : Nat) = 2 ^ 23 from by norm_num, Nat.and_two_pow]
  have h23 : (2 : Nat) ^ 23 = 8388608 := by norm_num
  by_cases hs : 8388608 ≤ b0 * 65536 + b1 * 256 + b2
  · have hdiv : (b0 * 65536 + b1 * 256 + b2) / 2 ^ 23 % 2 = 1 := by
      rw [h23]; omega
    have htest : Nat.testBit (b0 * 65536 + b1 * 256 + b2) 23 = true := by
      rw [Nat.testBit_to_div_mod, hdiv]
      rfl
    have hcond : (b0 * 65536 + b1 * 256 + b2) &&& 0x800000 ≠ 0 := by
      rw [hmask, htest, h23]
      norm_num
    rw [if_pos hs]
    simp only [toRawInt, hcomb]
    rw [if_pos hcond]
    push_cast
    norm_num
  · have hdiv : (b0 * 65536 + b1 * 256 + b2) / 2 ^ 23 % 2 = 0 := by
      rw [h23]; omega
    have htest : Nat.testBit (b0 * 65536 + b1 * 256 + b2) 23 = false := by
      rw [Nat.testBit_to_div_mod, hdiv]
      rfl
    have hcond : ¬ ((b0 * 65536 + b1 * 256 + b2) &&& 0x800000 ≠ 0) := by
      rw [hmask, htest]
      norm_num
    rw [if_neg hs]
    simp only [toRawInt, hcomb]
    rw [if_neg hcond]
    push_cast
    ring

/-- **C5**: for every payload, the sample decoder converts each complete
3-byte group `(b0, b1, b2)` to the signed 24-bit big-endian value
`(b0<<16)|(b1<<8)|b2` (equal, for bytes, to `b0*65536 + b1*256 + b2` with
`0x1000000` subtracted when bit 23 is set), multiplied by the calibration
constant `(2.4 / 6 / (2^23 - 1)) * 1000000` microvolts; a payload of length
`L` yields exactly `⌊L/3⌋` samples, and trailing bytes not completing a
3-byte group are silently dropped — the decoder is a pure function of the
bytes it is handed and never re-buffers them across calls. -/
theorem sample_decoder_spec :
    (∀ p : List Nat, (parseSamples p).length = p.length / 3) ∧
    (∀ p : List Nat, parseSamples p = parseSamples (p.take (3 * (p.length / 3)))) ∧
    (∀ (b0 b1 b2 : Nat) (rest : List Nat),
        parseSamples (b0 :: b1 :: b2 :: rest) = toRawInt b0 b1 b2 :: parseSamples rest) ∧
    (∀ b0 b1 b2 : Nat, b0 < 256 → b1 < 256 → b2 < 256 →
        toRawInt b0 b1 b2 =
          if 8388608 ≤ b0 * 65536 + b1 * 256 + b2
          then (b0 * 65536 + b1 * 256 + b2 : Int) - 16777216
          else (b0 * 65536 + b1 * 256 + b2 : Int)) ∧
    UV_SCALE = 2.4 / 6 / (2 ^ 23 - 1) * 1000000 ∧
    (∀ s : Int, uvValue s = (s : ℚ) * UV_SCALE) :=
  ⟨parseSamples_length, parseSamples_take, fun _ _ _ _ => rfl,
   fun _ _ _ h0 h1 h2 => toRawInt_eq_spec h0 h1 h2,
   by norm_num [UV_SCALE],
   fun _ => rfl⟩

/-- Witness for C5: the most negative 24-bit sample decodes with the correct
sign. -/
theorem sample_decoder_spec_witness :
    (0x80 : Nat) < 256 ∧ (0 : Nat) < 256 ∧ (1 : Nat) < 256 ∧
      toRawInt 0x80 0 1 = -8388607 := by
  refine ⟨by decide, by decide, by decide, ?_⟩
  rw [sample_decoder_spec.2.2.2.1 0x80 0 1 (by decide) (by decide) (by decide)]
  decide

/-! ## Spectral metric derivation (`analyzeSignal`, metric step)

Floating-point quantities are modelled as exact rationals.  `Math.min` and
`Math.max` are embedded as the if-based functions below (executable on
rationals), and proved equal to the lattice operations. -/

/-- `Math.max` on rationals. -/
def mathMax (a b : ℚ) : ℚ := if a ≤ b then b else a

/-- `Math.min` on rationals. -/
def mathMin (a b : ℚ) : ℚ := if a ≤ b then a else b

theorem mathMax_eq_max (a b : ℚ) : mathMax a b = max a b := by
  rw [mathMax]
  split
  next h => rw [max_eq_right h]
  next h => rw [max_eq_left (le_of_not_le h)]

theorem mathMin_eq_min (a b : ℚ) : mathMin a b = min a b := by
  rw [mathMin]
  split
  next h => rw [min_eq_left h]
  next h => rw [min_eq_right (le_of_not_le h)]

/-- Mirror of the `AnalysisMetrics` record of `types.ts`. -/
structure AnalysisMetrics where
  attention : ℚ
  relaxation : ℚ
  isMeditating : Bool
  deriving DecidableEq

/-- `MEDITATION_THRESHOLD` from `constants.ts`. -/
def MEDITATION_THRESHOLD : ℚ := 0.85

/-- The metric-derivation step of `analyzeSignal` as a function of the five
band powers: epsilon-guarded ratios, damping by `0.8`, clamping to `[0,1]`,
and the strict threshold test for `isMeditating`. -/
def analyzeSignalMetrics (delta theta alpha beta gamma : ℚ) : AnalysisMetrics :=
  let eps : ℚ := 0.001
  let rawRelaxation := alpha / (beta + theta + eps)
  let relaxation := mathMin 1 (mathMax 0 (rawRelaxation * 0.8))
  let rawAttention := beta / (alpha + theta + eps)
  let attention := mathMin 1 (mathMax 0 (rawAttention * 0.8))
  let isMeditating := decide (relaxation > MEDITATION_THRESHOLD)
  { attention := attention, relaxation := relaxation, isMeditating := isMeditating }

/-- **C6**: for all non-negative band power inputs, including the all-zero
case, the metric derivation divides by `beta + theta + 0.001` resp.
`alpha + theta + 0.001`, scales by `0.8`, and clamps, so the computed
relaxation and attention are always within `[0,1]`, and both divisors are
strictly positive — no division by zero (and hence, over exact arithmetic,
no NaN) can occur. -/
theorem metrics_clamped (delta theta alpha beta gamma : ℚ)
    (hd : 0 ≤ delta) (ht : 0 ≤ theta) (ha : 0 ≤ alpha) (hb : 0 ≤ beta) (hg : 0 ≤ gamma) :
    (0 ≤ (analyzeSignalMetrics delta theta alpha beta gamma).relaxation ∧
      (analyzeSignalMetrics delta theta alpha beta gamma).relaxation ≤ 1) ∧
    (0 ≤ (analyzeSignalMetrics delta theta alpha beta gamma).attention ∧
      (analyzeSignalMetrics delta theta alpha beta gamma).attention ≤ 1) ∧
    (analyzeSignalMetrics delta theta alpha beta gamma).relaxation
      = min 1 (max 0 (alpha / (beta + theta + 0.001) * 0.8)) ∧
    (analyzeSignalMetrics delta theta alpha beta gamma).attention
      = min 1 (max 0 (beta / (alpha + theta + 0.001) * 0.8)) ∧
    0 < beta + theta + 0.001 ∧ 0 < alpha + theta + 0.001 := by
  have heps : (0 : ℚ) < 0.001 := by norm_num
  have hrel : (analyzeSignalMetrics delta theta alpha beta gamma).relaxation
      = min 1 (max 0 (alpha / (beta + theta + 0.001) * 0.8)) := by
    simp only [analyzeSignalMetrics, mathMin_eq_min, mathMax_eq_max]
  have hatt : (analyzeSignalMetrics delta theta alpha beta gamma).attention
      = min 1 (max 0 (beta / (alpha + theta + 0.001) * 0.8)) := by
    simp only [analyzeSignalMetrics, mathMin_eq_min, mathMax_eq_max]
  refine ⟨⟨?_, ?_⟩, ⟨?_, ?_⟩, hrel, hatt, by linarith, by linarith⟩
  · rw [hrel]
    exact le_min (by norm_num) (le_max_left 0 _)
  · rw [hrel]
    exact min_le_left 1 _
  · rw [hatt]
    exact le_min (by norm_num) (le_max_left 0 _)
  · rw [hatt]
    exact min_le_left 1 _
/-- Witness for C6 at the degenerate all-zero band input. -/
theorem metrics_clamped_witness :
    (0 : ℚ) ≤ 0 ∧
      ((0 ≤ (analyzeSignalMetrics 0 0 0 0 0).relaxation ∧
          (analyzeSignalMetrics 0 0 0 0 0).relaxation ≤ 1) ∧
        (0 ≤ (analyzeSignalMetrics 0 0 0 0 0).attention ∧
          (analyzeSignalMetrics 0 0 0 0 0).attention ≤ 1) ∧
        (analyzeSignalMetrics 0 0 0 0 0).relaxation
          = min 1 (max 0 (0 / ((0 : ℚ) + 0 + 0.001) * 0.8)) ∧
        (analyzeSignalMetrics 0 0 0 0 0).attention
          = min 1 (max 0 (0 / ((0 : ℚ) + 0 + 0.001) * 0.8)) ∧
        (0 : ℚ) < 0 + 0 + 0.001 ∧ (0 : ℚ) < 0 + 0 + 0.001) :=
  ⟨le_refl 0, metrics_clamped 0 0 0 0 0 le_rfl le_rfl le_rfl le_rfl le_rfl⟩

/-- **C7**: whenever metrics are computed, `isMeditating` is true if and
only if the freshly computed relaxation strictly exceeds the meditation
threshold (`0.85`); a relaxation value exactly equal to the threshold yields
`false`.  The flag is recomputed from the current inputs on every call (the
derivation takes no previous state), so it is never held sticky. -/
theorem meditation_flag_iff (delta theta alpha beta gamma : ℚ) :
    ((analyzeSignalMetrics delta theta alpha beta gamma).isMeditating = true ↔
      MEDITATION_THRESHOLD < (analyzeSignalMetrics delta theta alpha beta gamma).relaxation) ∧
    ((analyzeSignalMetrics delta theta alpha beta gamma).relaxation = MEDITATION_THRESHOLD →
      (analyzeSignalMetrics delta theta alpha beta gamma).isMeditating = false) := by
  constructor
  · simp only [analyzeSignalMetrics, decide_eq_true_eq, gt_iff_lt]
  · intro h
    simp only [analyzeSignalMetrics] at h ⊢
    rw [h]
    simp

/-- Witness for C7: a band input whose relaxation lands exactly on the
threshold yields `isMeditating = false`. -/
theorem meditation_flag_iff_witness :
    (analyzeSignalMetrics 0 0 (17 / 16000) 0 0).relaxation = MEDITATION_THRESHOLD ∧
      (analyzeSignalMetrics 0 0 (17 / 16000) 0 0).isMeditating = false := by
  have hrel : (analyzeSignalMetrics 0 0 (17 / 16000) 0 0).relaxation
      = MEDITATION_THRESHOLD := by
    simp only [analyzeSignalMetrics, mathMin_eq_min, mathMax_eq_max, MEDITATION_THRESHOLD]
    have h1 : (17 / 16000 : ℚ) / (0 + 0 + 0.001) * 0.8 = 0.85 := by norm_num
    rw [h1, max_eq_right (show (0 : ℚ) ≤ 0.85 by norm_num),
      min_eq_right (show (0.85 : ℚ) ≤ 1 by norm_num)]
  exact ⟨hrel, (meditation_flag_iff 0 0 (17 / 16000) 0 0).2 hrel⟩

/-! ## Simulation Engine (`updateSimulation`)

Deterministic core of one simulation tick under zero motion input (no
`devicemotion` deltas, so nothing is added to the agitation level between
ticks).  The band powers and the synthesized raw wave involve
`Math.random()` and wall-clock time and are not modelled; no claim depends
on them.  The JavaScript fallback `this.latestData.metrics.relaxation || 0.5`
is `0.5` exactly when the stored relaxation is `0` (falsy). -/

structure SimState where
  agitationLevel : ℚ
  relaxation : ℚ
  attention : ℚ
  isMeditating : Bool

/-- One tick of `updateSimulation` with zero motion input. -/
def updateSimulation (s : SimState) : SimState :=
  let agitationLevel := mathMax 0 (s.agitationLevel * 0.96)
  let normalizedAgitation := mathMin (agitationLevel / 20) 1
  let targetRelaxation := 1 - normalizedAgitation
  let prevRelaxation := if s.relaxation = 0 then 0.5 else s.relaxation
  let relaxation := prevRelaxation * 0.85 + targetRelaxation * 0.15
  let attention := 1 - relaxation
  { agitationLevel := agitationLevel, relaxation := relaxation, attention := attention,
    isMeditating := decide (relaxation > MEDITATION_THRESHOLD) }

/-- The simulation state after `n` ticks, from the reset state
(`agitationLevel = 0`, zeroed metrics) that `startSimulation` begins from. -/
def simSeq : Nat → SimState
  | 0 => { agitationLevel := 0, relaxation := 0, attention := 0, isMeditating := false }
  | n + 1 => updateSimulation (simSeq n)

theorem simSeq_agitation_eq_zero : ∀ n : Nat, (simSeq n).agitationLevel = 0 := by
  intro n
  induction n with
  | zero => rfl
  | succ m ih =>
    show (updateSimulation (simSeq m)).agitationLevel = 0
    simp only [updateSimulation, ih]
    norm_num [mathMax]

theorem simSeq_relaxation_rec (n : Nat) :
    (simSeq (n + 1)).relaxation =
      (if (simSeq n).relaxation = 0 then 0.5 else (simSeq n).relaxation) * 0.85
        + 1 * 0.15 := by
  show (updateSimulation (simSeq n)).relaxation = _
  simp only [updateSimulation, simSeq_agitation_eq_zero n]
  norm_num [mathMax, mathMin]

theorem simSeq_relaxation_one : (simSeq 1).relaxation = 0.575 := by
  rw [simSeq_relaxation_rec 0]
  norm_num [simSeq]

/-- Closed form of the zero-motion relaxation sequence after the first tick:
`r (n+1) = 1 - 0.425 * 0.85 ^ n`. -/
theorem simSeq_relaxation_closed :
    ∀ n : Nat, (simSeq (n + 1)).relaxation = 1 - 0.425 * 0.85 ^ n := by
  intro n
  induction n with
  | zero =>
    rw [simSeq_relaxation_one]
    norm_num
  | succ m ih =>
    rw [simSeq_relaxation_rec (m + 1), ih]
    have hpow : (0.85 : ℚ) ^ m ≤ 1 :=
      pow_le_one₀ (by norm_num) (by norm_num)
    have hne : (1 : ℚ) - 0.425 * 0.85 ^ m ≠ 0 := by
      have : (0.425 : ℚ) * 0.85 ^ m ≤ 0.425 := by nlinarith
      intro hzero
      nlinarith
    rw [if_neg hne]
    ring

theorem simSeq_relaxation_le_one : ∀ n : Nat, (simSeq n).relaxation ≤ 1 := by
  intro n
  cases n with
  | zero => norm_num [simSeq]
  | succ m =>
    rw [simSeq_relaxation_closed m]
    have hpow : (0 : ℚ) ≤ 0.425 * 0.85 ^ m := by positivity
    linarith

theorem simSeq_relaxation_mono : ∀ n : Nat,
    (simSeq n).relaxation ≤ (simSeq (n + 1)).relaxation := by
  intro n
  cases n with
  | zero =>
    rw [show (simSeq 0).relaxation = 0 from rfl, simSeq_relaxation_one]
    norm_num
  | succ m =>
    rw [simSeq_relaxation_closed m, simSeq_relaxation_closed (m + 1)]
    have hpow : (0.85 : ℚ) ^ (m + 1) ≤ 0.85 ^ m :=
      pow_le_pow_of_le_one (by norm_num) (by norm_num) (by omega)
    linarith

theorem simSeq_relaxation_le_of_le : ∀ (k n : Nat),
    (simSeq n).relaxation ≤ (simSeq (n + k)).relaxation := by
  intro k
  induction k with
  | zero => exact fun n => le_refl _
  | succ m ih =>
    intro n
    calc (simSeq n).relaxation ≤ (simSeq (n + m)).relaxation := ih n
      _ ≤ (simSeq (n + m + 1)).relaxation := simSeq_relaxation_mono (n + m)

theorem simSeq_flag (n : Nat) :
    (simSeq (n + 1)).isMeditating
      = decide (MEDITATION_THRESHOLD < (simSeq (n + 1)).relaxation) := rfl

theorem simSeq_threshold_at_8 :
    MEDITATION_THRESHOLD < (simSeq 8).relaxation := by
  rw [show (8 : Nat) = 7 + 1 from rfl, simSeq_relaxation_closed 7, MEDITATION_THRESHOLD]
  norm_num

/-- Counterexample to **C9** as stated: the very first tick does not set
relaxation to `0.85 · previous + 0.15 · target`.  The initial relaxation is
`0`, which is falsy in JavaScript, so `prevRelaxation || 0.5` substitutes
`0.5`: the first tick yields `0.575`, not `0.85 * 0 + 0.15 * 1 = 0.15`. -/
theorem simulation_first_tick_counterexample :
    (simSeq 1).relaxation = 0.575 ∧
      (simSeq 1).relaxation ≠ 0.85 * (simSeq 0).relaxation + 0.15 * 1 := by
  refine ⟨simSeq_relaxation_one, ?_⟩
  rw [simSeq_relaxation_one, show (simSeq 0).relaxation = 0 from rfl]
  norm_num

/-- **C9** (amended): in the Simulation Engine, with zero motion input on
every tick, the agitation level stays `0` and the target relaxation stays
`1`; each tick sets relaxation to `0.85 · previous + 0.15 · target`, except
that a stored relaxation of exactly `0` (the initial state — `0` is falsy in
JavaScript) is first replaced by the fallback `0.5`.  The relaxation
sequence is monotonically non-decreasing toward 1 (explicitly,
`r (n+1) = 1 - 0.425 * 0.85 ^ n ≤ 1`), and from the 8th tick on it strictly
exceeds the `0.85` meditation threshold, so `isMeditating` becomes and stays
true. -/
theorem simulation_relaxation_convergence :
    (∀ n : Nat, (simSeq n).agitationLevel = 0) ∧
    (∀ n : Nat, (simSeq (n + 1)).relaxation =
      (if (simSeq n).relaxation = 0 then 0.5 else (simSeq n).relaxation) * 0.85
        + 1 * 0.15) ∧
    (∀ n : Nat, (simSeq n).relaxation ≤ (simSeq (n + 1)).relaxation) ∧
    (∀ n : Nat, (simSeq n).relaxation ≤ 1) ∧
    (∀ n : Nat, (simSeq (n + 1)).relaxation = 1 - 0.425 * 0.85 ^ n) ∧
    MEDITATION_THRESHOLD < (simSeq 8).relaxation ∧
    (∀ n : Nat, (simSeq (n + 8)).isMeditating = true) := by
  refine ⟨simSeq_agitation_eq_zero, simSeq_relaxation_rec, simSeq_relaxation_mono,
    simSeq_relaxation_le_one, simSeq_relaxation_closed, simSeq_threshold_at_8, ?_⟩
  intro n
  rw [show n + 8 = n + 7 + 1 from rfl, simSeq_flag (n + 7)]
  apply decide_eq_true
  have h8 : (simSeq 8).relaxation ≤ (simSeq (8 + n)).relaxation :=
    simSeq_relaxation_le_of_le n 8
  rw [Nat.add_comm 8 n] at h8
  exact lt_of_lt_of_le simSeq_threshold_at_8 (by rw [show n + 7 + 1 = n + 8 from rfl]; exact h8)

/-! ## Handshake Encoder (`sendHandshake`)

The frame-construction part of `sendHandshake` (steps 1-4 of the source);
the transport write is not modelled.  Device identifiers are lists of
characters. -/

/-- Step 1 of `sendHandshake`: strip non-digits
(`replace(/[^0-9]/g, '')`), right-pad with `'0'` to 6 characters
(`padEnd(6, '0')`), truncate to 6 (`slice(0, 6)`). -/
def sanitizeId (s : List Char) : List Char :=
  let digits := s.filter fun c => c.isDigit
  (digits ++ List.replicate (6 - digits.length) '0').take 6

/-- `parseInt` of a single hexadecimal digit character. -/
def hexDigitVal (c : Char) : Nat :=
  if c.isDigit then c.toNat - '0'.toNat
  else if 'a' ≤ c ∧ c ≤ 'f' then c.toNat - 'a'.toNat + 10
  else if 'A' ≤ c ∧ c ≤ 'F' then c.toNat - 'A'.toNat + 10
  else 0

/-- `parseInt(·, 16)` on one two-character group. -/
def parseHexPair (c1 c2 : Char) : Nat := 16 * hexDigitVal c1 + hexDigitVal c2

/-- The outbound handshake frame built by `sendHandshake`:
`[0xAA, 0xB0, 0xB0, 0x03, id1, id2, id3, crc, 0xBB]` with the id bytes
parsed as hex pairs from the sanitized identifier and
`crc = crc8([0xB0, 0xB0, 0x03, id1, id2, id3])`. -/
def buildHandshake (deviceId : List Char) : List Nat :=
  let cleanId := sanitizeId deviceId
  let id1 := parseHexPair (cleanId.getD 0 '0') (cleanId.getD 1 '0')
  let id2 := parseHexPair (cleanId.getD 2 '0') (cleanId.getD 3 '0')
  let id3 := parseHexPair (cleanId.getD 4 '0') (cleanId.getD 5 '0')
  let payload := [0xB0, 0xB0, 0x03, id1, id2, id3]
  0xAA :: payload ++ [crc8 payload, 0xBB]

set_option maxRecDepth 8192 in
/-- **C8**: for every device-identifier string, the handshake encoder
sanitizes it to digits only, right-pads with `'0'` to 6 characters,
truncates to 6, parses the three 2-character groups as hexadecimal bytes,
and emits the frame `[0xAA, 0xB0, 0xB0, 0x03, id1, id2, id3, crc, 0xBB]`
where `crc = crc8([0xB0, 0xB0, 0x03, id1, id2, id3])`; in particular the id
`"123456"` produces exactly `AA B0 B0 03 12 34 56 D5 BB`, where
`0xD5 = crc8([0xB0, 0xB0, 0x03, 0x12, 0x34, 0x56])`. -/
theorem handshake_spec :
    (∀ deviceId : List Char,
        (sanitizeId deviceId).length = 6 ∧
        (∀ c ∈ sanitizeId deviceId, c.isDigit) ∧
        buildHandshake deviceId =
          0xAA :: [0xB0, 0xB0, 0x03,
              parseHexPair ((sanitizeId deviceId).getD 0 '0')
                ((sanitizeId deviceId).getD 1 '0'),
              parseHexPair ((sanitizeId deviceId).getD 2 '0')
                ((sanitizeId deviceId).getD 3 '0'),
              parseHexPair ((sanitizeId deviceId).getD 4 '0')
                ((sanitizeId deviceId).getD 5 '0')]
            ++ [crc8 [0xB0, 0xB0, 0x03,
              parseHexPair ((sanitizeId deviceId).getD 0 '0')
                ((sanitizeId deviceId).getD 1 '0'),
              parseHexPair ((sanitizeId deviceId).getD 2 '0')
                ((sanitizeId deviceId).getD 3 '0'),
              parseHexPair ((sanitizeId deviceId).getD 4 '0')
                ((sanitizeId deviceId).getD 5 '0')], 0xBB]) ∧
    buildHandshake ['1', '2', '3', '4', '5', '6']
      = [0xAA, 0xB0, 0xB0, 0x03, 0x12, 0x34, 0x56, 0xD5, 0xBB] ∧
    (0xD5 : Nat) = crc8 [0xB0, 0xB0, 0x03, 0x12, 0x34, 0x56] := by
  refine ⟨fun deviceId => ⟨?_, ?_, rfl⟩, by decide, by decide⟩
  · simp only [sanitizeId, List.length_take, List.length_append, List.length_replicate]
    omega
  · intro c hc
    have hc' := List.take_subset 6 _ hc
    rcases List.mem_append.mp hc' with hmem | hmem
    · exact List.of_mem_filter hmem
    · rw [List.eq_of_mem_replicate hmem]
      decide
